import Mathlib

/-
Shallow embedding, in Lean 4, of the core algorithms of the compressor:
  - the bit array of src/bitarray.h (LSB/MSB-first bit-granular appends and reads),
  - the LZ77 coder of src/lz.c (triple format, hash-table match finder),
  - the boundary package-merge implementation of src/package_merge.c and the
    length reconstruction helper of src/test/package_merge_test.c,
  - the hash-chain LZ encoder of src/deflate.c,
  - the canonical prefix-code construction pipeline of src/huffman.c.

Machine integers are modelled as Nat with explicit reductions modulo 2^8, 2^16,
2^32 where the C types make overflow or truncation possible; signed 16-bit values
are modelled as Int with an explicit two's-complement wrap.  Reads of memory the
C code does not own, shifts by amounts at least the promoted width, and failed
assertions are modelled by returning none.
-/

namespace Bits

/-- Observable state of a bit array of src/bitarray.h: the number of bits `_size`
together with the byte memory backing `_buf`.  The memory is a total function from
byte index to byte value; capacity bookkeeping (`_bytes_allocated`, realloc) has no
effect on the observable bits and is not modelled. -/
structure BitArr where
  size : Nat
  mem : Nat → Nat

/-- The function `_bitarray_bit`: `(buf[i / 8] >> (i & 7)) & 0x1`.  The masks `& 7`
and `& 0x1` are written as `% 8` and `% 2` on Nat; the `% 256` reflects that the
buffer stores bytes. -/
def bitarray_bit (A : BitArr) (i : Nat) : Nat :=
  ((A.mem (i / 8) % 256) >>> (i % 8)) % 2

/-- The function `_bitarray_push_raw`: clear bit `size & 7` of byte `size / 8`,
or in `(bit & 0x1) << rel`, and increment the size.  The cleared-bit mask
`~(1 << rel)` truncated to a byte is `255 - (1 <<< rel)`. -/
def bitarray_push_raw (A : BitArr) (bit : Nat) : BitArr :=
  let byteIndex := A.size / 8
  let rel := A.size % 8
  let oldByte := A.mem byteIndex % 256
  let newByte := (oldByte &&& (255 - (1 <<< rel))) ||| ((bit % 2) <<< rel)
  { size := A.size + 1, mem := fun j => if j = byteIndex then newByte else A.mem j }

/-- The function `_bitarray_push`: reserve (observably a no-op) then push one raw
bit. -/
def bitarray_push (A : BitArr) (bit : Nat) : BitArr :=
  bitarray_push_raw A bit

/-- The function `_bitarray_push_bits_lsb`: push bits `v >> 0`, `v >> 1`, ...,
`v >> (n-1)` in this order. -/
def bitarray_push_bits_lsb (A : BitArr) (v : Nat) : Nat → BitArr
  | 0 => A
  | n + 1 => bitarray_push_raw (bitarray_push_bits_lsb A v n) (v >>> n)

/-- Iteration scheme of `_bitarray_push_bits_msb`: with `k` iterations left the
pushed bit is `v >> (k - 1)`, so the bits pushed are `v >> (n-1)`, ..., `v >> 0`. -/
def msbPushGo (v : Nat) : BitArr → Nat → BitArr
  | A, 0 => A
  | A, k + 1 => msbPushGo v (bitarray_push_raw A (v >>> k)) k

/-- The function `_bitarray_push_bits_msb`. -/
def bitarray_push_bits_msb (A : BitArr) (v n : Nat) : BitArr :=
  msbPushGo v A n

/-- Loop of `_bitarray_bits_lsb`: `bits |= (bitarray_bit(b, index + i) << i)`.
The bit read is a uint8_t promoted to a 32-bit int before the shift, so the shift
is undefined when the count is at least 32, or equals 31 with a set bit; these
cases return none. -/
def lsbReadGo (A : BitArr) (idx : Nat) : Nat → Nat → Nat → Option Nat
  | 0, _, acc => some acc
  | rem + 1, i, acc =>
    let b := bitarray_bit A (idx + i)
    if 32 ≤ i ∨ (i = 31 ∧ b = 1) then none
    else lsbReadGo A idx rem (i + 1) (acc ||| (b <<< i))

/-- The function `_bitarray_bits_lsb`, including its two asserts (range in bounds,
`n < 64`). -/
def bitarray_bits_lsb (A : BitArr) (idx n : Nat) : Option Nat :=
  if idx + n ≤ A.size ∧ n < 64 then lsbReadGo A idx n 0 0 else none

/-- Loop of `_bitarray_bits_msb`: `bits |= (bitarray_bit(b, index + i) << (n - i - 1))`,
with the same promoted-shift undefinedness as the LSB read. -/
def msbReadGo (A : BitArr) (idx n : Nat) : Nat → Nat → Nat → Option Nat
  | 0, _, acc => some acc
  | rem + 1, i, acc =>
    let b := bitarray_bit A (idx + i)
    if 32 ≤ n - i - 1 ∨ (n - i - 1 = 31 ∧ b = 1) then none
    else msbReadGo A idx n rem (i + 1) (acc ||| (b <<< (n - i - 1)))

/-- The function `_bitarray_bits_msb`, including its two asserts. -/
def bitarray_bits_msb (A : BitArr) (idx n : Nat) : Option Nat :=
  if idx + n ≤ A.size ∧ n < 64 then msbReadGo A idx n n 0 0 else none

end Bits

namespace PM

/-- NULL_CHAIN_REF of src/package_merge.c (UINT16_MAX). -/
def NULL_CHAIN_REF : Nat := 65535

/-- FREQ_MAX of src/package_merge.c (UINT32_MAX). -/
def FREQ_MAX : Nat := 4294967295

/-- One more than the largest uint32 value; uint32 arithmetic reduces modulo this. -/
def U32 : Nat := 4294967296

/-- The struct chain_t: a uint32 count and a uint16 tail reference. -/
structure Chain where
  count : Nat
  tail : Nat
deriving Repr, DecidableEq

/-- Mutable state of a package_merge run: the chains array, the freelist fields
(capacity is passed separately), the per-list rightmost chain and weight arrays,
the explicit recursion stack (head of the list is the top of the stack), and the
uint8 variable current. -/
structure St where
  chains : Nat → Chain
  flSize : Nat
  flNext : Nat
  lists : Nat → Nat
  weights : Nat → Nat
  stack : List Nat
  current : Nat

/-- The function alloc_chain: take the head of the freelist, or the next fresh
slot; the capacity assert failing is none. -/
def alloc_chain (cap : Nat) (st : St) : Option (Nat × St) :=
  if st.flNext = NULL_CHAIN_REF then
    if st.flSize < cap then some (st.flSize, { st with flSize := st.flSize + 1 })
    else none
  else
    some (st.flNext, { st with flNext := (st.chains st.flNext).count % 65536 })

/-- The function release_chain: store the old freelist head in the count field and
push the chain on the freelist. -/
def release_chain (st : St) (idx : Nat) : St :=
  { st with
    chains := fun j =>
      if j = idx then { count := st.flNext, tail := NULL_CHAIN_REF } else st.chains j,
    flNext := idx }

/-- Inner while of the is_chain_used check: follow tails until the target chain or
NULL_CHAIN_REF is reached.  A walk longer than the fuel (a cycle) is none. -/
def chainWalkHits (chains : Nat → Chain) : Nat → Nat → Nat → Option Bool
  | 0, _, _ => none
  | fuel + 1, ci, target =>
    if ci = target then some true
    else if ci = NULL_CHAIN_REF then some false
    else chainWalkHits chains fuel (chains ci).tail target

/-- The loop of the is_chain_used check: `for (uint8_t l = current + 1; l < limit; ++l)`,
walking each rightmost chain; k counts the remaining values of l. -/
def usedCheckGo (chains : Nat → Chain) (lists : Nat → Nat) (wfuel target : Nat) :
    Nat → Nat → Option Bool
  | _, 0 => some false
  | l, k + 1 =>
    match chainWalkHits chains wfuel (lists l) target with
    | none => none
    | some true => some true
    | some false => usedCheckGo chains lists wfuel target (l + 1) k

/-- Whether the chain to_free is still referenced from the rightmost chain of any
list above current (with the uint8 wrap of current + 1). -/
def usedCheck (st : St) (limit wfuel target : Nat) : Option Bool :=
  usedCheckGo st.chains st.lists wfuel target ((st.current + 1) % 256)
    (limit - (st.current + 1) % 256)

/-- The aggressive reclaiming while-loop over to_free, with the uint8 wrap of
current--. -/
def freeLoop (limit wfuel : Nat) : Nat → St → Nat → Option St
  | 0, _, _ => none
  | fuel + 1, st, target =>
    if target = NULL_CHAIN_REF then some st
    else
      match usedCheck st limit wfuel target with
      | none => none
      | some true => some st
      | some false =>
        let next := (st.chains target).tail
        let st2 := release_chain st target
        freeLoop limit wfuel fuel { st2 with current := (st2.current + 255) % 256 } next

/-- One iteration of the BoundaryPM for-loop body of package_merge.  Returns the
state after the iteration together with the flag telling whether the loop counter
i was incremented (current was the last list when the chain was added). -/
def step (freqs : List Nat) (n limit cap : Nat) (st : St) : Option (St × Bool) :=
  match alloc_chain cap st with
  | none => none
  | some (new, st1) =>
    let to_free := st1.lists st1.current
    let cc := st1.chains (st1.lists st1.current)
    let freq := if n ≤ cc.count then FREQ_MAX else freqs.getD cc.count 0
    let s := if st1.current = 0 then 0 else st1.weights (st1.current - 1)
    if freq = 0 then none
    else
      match
        (if st1.current = 0 ∨ freq < s then
          some { st1 with
            chains := fun j => if j = new then
                { count := (cc.count + 1) % U32,
                  tail := if st1.current = 0 then NULL_CHAIN_REF else cc.tail }
              else st1.chains j,
            weights := fun l => if l = st1.current
              then (st1.weights st1.current + freq) % U32 else st1.weights l }
        else if st1.stack.length + 2 ≤ 32 then
          some { st1 with
            chains := fun j => if j = new then
                { count := cc.count, tail := st1.lists (st1.current - 1) }
              else st1.chains j,
            weights := fun l =>
              if l = st1.current - 1 then 0
              else if l = st1.current then (st1.weights st1.current + s) % U32
              else st1.weights l,
            stack := (st1.current - 1) :: (st1.current - 1) :: st1.stack }
        else none) with
      | none => none
      | some st2 =>
        let st3 := { st2 with lists := fun l => if l = st2.current then new else st2.lists l }
        let incI := st3.current = limit - 1
        let startFree :=
          if st3.current = limit - 1 then
            let next := (st3.chains to_free).tail
            let st4 := release_chain st3 to_free
            (({ st4 with current := (st4.current + 255) % 256 } : St), next)
          else (st3, to_free)
        match freeLoop limit (cap + 1) (cap + 1) startFree.1 startFree.2 with
        | none => none
        | some st5 =>
          match st5.stack with
          | [] => some ({ st5 with current := limit - 1 }, incI)
          | c :: rest => some ({ st5 with current := c, stack := rest }, incI)

/-- The BoundaryPM for-loop: run step until i reaches 2n - 2. -/
def runLoop (freqs : List Nat) (n limit cap : Nat) : Nat → Nat → St → Option St
  | 0, _, _ => none
  | fuel + 1, i, st =>
    if i < 2 * n - 2 then
      match step freqs n limit cap st with
      | none => none
      | some (st2, inc) => runLoop freqs n limit cap fuel (if inc then i + 1 else i) st2
    else some st

/-- Initialisation loop of package_merge: one chain of count 2 per list, weight
freqs[0] + freqs[1] per list. -/
def initGo (w0 cap : Nat) : Nat → Nat → St → Option St
  | 0, _, st => some st
  | k + 1, i, st =>
    match alloc_chain cap st with
    | none => none
    | some (new, st1) =>
      initGo w0 cap k (i + 1)
        { st1 with
          chains := fun j => if j = new then { count := 2, tail := NULL_CHAIN_REF }
            else st1.chains j,
          lists := fun l => if l = i then new else st1.lists l,
          weights := fun l => if l = i then w0 else st1.weights l }

/-- Final walk of package_merge: collect the counts along the rightmost chain of
the last list (head of the returned list is the count written at index limit-1). -/
def collectCounts (chains : Nat → Chain) : Nat → Nat → Option (List Nat)
  | 0, _ => none
  | fuel + 1, ci =>
    if ci = NULL_CHAIN_REF then some []
    else
      match collectCounts chains fuel (chains ci).tail with
      | none => none
      | some rest => some ((chains ci).count :: rest)

/-- Write the collected counts into the caller-supplied active_leaves array:
position limit-1 receives the first count, and positions the walk never reaches
keep their initial (uninitialised) value. -/
def writeLeaves (init : List Nat) (limit : Nat) (counts : List Nat) : List Nat :=
  (List.range limit).map fun l =>
    if limit ≤ l + counts.length then counts.getD (limit - 1 - l) 0 else init.getD l 0

/-- The function package_merge of src/package_merge.c, applied to the frequency
array (its length is n), the limit, and the initial contents of the caller's
active_leaves array.  The entry asserts, the assert(n > 1) marking the
unimplemented n = 1 case, the in-loop asserts and the capacity assert all return
none when they fail. -/
def package_merge (freqs : List Nat) (limit : Nat) (init : List Nat) : Option (List Nat) :=
  let n := freqs.length
  if n = 0 then none
  else if 32 < limit then none
  else if ¬ n < 2 ^ limit then none
  else if n = 1 then none
  else if freqs.getD 0 0 = 0 ∨ freqs.getD 1 0 = 0 then none
  else
    let cap := limit * (limit + 1) / 2 + 1
    let w0 := (freqs.getD 0 0 + freqs.getD 1 0) % U32
    let st0 : St :=
      { chains := fun _ => { count := 0, tail := 0 }, flSize := 0,
        flNext := NULL_CHAIN_REF, lists := fun _ => 0, weights := fun _ => 0,
        stack := [], current := 0 }
    match initGo w0 cap limit 0 st0 with
    | none => none
    | some st1 =>
      match runLoop freqs n limit cap (64 * (n + 2) * (limit + 2)) 2
          { st1 with current := limit - 1 } with
      | none => none
      | some st2 =>
        match collectCounts st2.chains (cap + 1) (st2.lists (limit - 1)) with
        | none => none
        | some counts =>
          if limit < counts.length then none
          else some (writeLeaves init limit counts)

/-- The helper get_lengths of src/test/package_merge_test.c, outer loop: at list
index i the number of symbols is active_leaves[i] - active_leaves[i-1] (uint32
subtraction), each receiving code length limit - i; writing past the end of the
code_lengths array is none. -/
def getLengthsGo (a : List Nat) (limit alphabet : Nat) : Nat → Nat → List Nat → Option (List Nat)
  | 0, _, acc => some acc
  | k + 1, i, acc =>
    let num := if i = 0 then a.getD 0 0 else (a.getD i 0 + U32 - a.getD (i - 1) 0) % U32
    if alphabet < acc.length + num then none
    else getLengthsGo a limit alphabet k (i + 1) (acc ++ List.replicate num (limit - i))

/-- The helper get_lengths of src/test/package_merge_test.c: zero lengths for the
unused symbols, then the per-list counts converted to code lengths. -/
def get_lengths (a : List Nat) (limit used alphabet : Nat) : Option (List Nat) :=
  getLengthsGo a limit alphabet limit 0 (List.replicate (alphabet - used) 0)

end PM

namespace LZ

/-- Context of lz77_compress in src/lz.c: the 256-bucket hashtable keyed by the
first byte of a sequence (each bucket is the list of absolute indices, the most
recent first), plus the node freelist counters (the node pool holds
2 * SEARCH_BUFFER_SIZE = 8192 nodes, and node identities do not matter once the
indices are tracked per bucket). -/
structure Ctx where
  buckets : Nat → List Nat
  freeNodes : Nat
  poolUsed : Nat

/-- The function node_freelist_alloc: reuse a released node if any, otherwise take
a fresh pool slot; the pool-exhaustion assert failing is none. -/
def node_alloc (c : Ctx) : Option Ctx :=
  if c.freeNodes ≠ 0 then some { c with freeNodes := c.freeNodes - 1 }
  else if c.poolUsed < 8192 then some { c with poolUsed := c.poolUsed + 1 }
  else none

/-- The function hashtable_add_entry: prepend the index to the bucket of the
byte. -/
def hashtable_add_entry (c : Ctx) (byte idx : Nat) : Option Ctx :=
  match node_alloc c with
  | none => none
  | some c2 => some { c2 with buckets := fun b =>
      if b = byte % 256 then idx :: c2.buckets (byte % 256) else c2.buckets b }

/-- Inner compare loop of _find_prefix_linked_list:
`while (pattern[length] == str[current->index - sb_index + length] && length < pattern_size - 1)`.
Because str = data + (index - str_size) and sb_index = index - str_size, the str
access is data[current->index + length].  The pattern read data[index + length]
is evaluated before the bound test and may fall one past the end of the input;
that out-of-bounds read is none.  The fuel only bounds the structural recursion
and is never exhausted when it starts at pattern_size + 1. -/
def matchLenGo (data : List Nat) (index c patSize : Nat) : Nat → Nat → Option Nat
  | 0, _ => none
  | fuel + 1, length =>
    match data.get? (index + length), data.get? (c + length) with
    | some pb, some sb =>
      if pb = sb ∧ length < patSize - 1 then matchLenGo data index c patSize fuel (length + 1)
      else some length
    | _, _ => none

/-- Whether a stored index is inside the search window at the given position:
`index - current->index - 1 < SEARCH_BUFFER_SIZE` on size_t, which is false
whenever the stored index is not strictly below the position (the subtraction
would wrap). -/
def inWindow (index c : Nat) : Bool :=
  decide (c < index) && decide (index - c - 1 < 4096)

/-- Walk of _find_prefix_linked_list over the bucket list: stop at the first node
outside the window, keep the strictly longest match (ties keep the earlier, more
recent node). -/
def findWalk (data : List Nat) (index patSize : Nat) :
    List Nat → Nat × Nat → Option (Nat × Nat)
  | [], best => some best
  | c :: rest, best =>
    if inWindow index c then
      match matchLenGo data index c patSize (patSize + 1) 1 with
      | none => none
      | some len =>
        findWalk data index patSize rest (if best.2 < len then (c, len) else best)
    else some best

/-- The function _find_prefix_linked_list: walk the bucket of pattern[0]
collecting the best match, then release the suffix of nodes that fell outside the
window (only when the walk stopped at such a node after visiting at least one
node).  Returns the updated context and (best_match_offset, best_match_length),
the offset being the absolute index of the best match. -/
def find_prefix_linked_list (ctx : Ctx) (data : List Nat) (index patSize : Nat) :
    Option (Ctx × Nat × Nat) :=
  match data.get? index with
  | none => none
  | some p0 =>
    let bucket := ctx.buckets (p0 % 256)
    match findWalk data index patSize bucket (0, 0) with
    | none => none
    | some best =>
      let kept := bucket.takeWhile (fun c => inWindow index c)
      let dropped := bucket.length - kept.length
      let ctx2 :=
        if kept.length ≠ 0 ∧ dropped ≠ 0 then
          { ctx with
            buckets := fun b => if b = p0 % 256 then kept else ctx.buckets b,
            freeNodes := ctx.freeNodes + dropped }
        else ctx
      some (ctx2, best)

/-- The function _emit_triple: offset and length asserts, then the 12/4-bit packed
big-endian pair followed by the next byte. -/
def emit_triple (out : List Nat) (offset length next : Nat) : Option (List Nat) :=
  if offset ≤ 4096 ∧ length ≤ 16 then
    let combined := ((offset % 4096) <<< 4) ||| (length % 16)
    some (out ++ [(combined >>> 8) % 256, combined % 256, next % 256])
  else none

/-- Loop of the match branch of lz77_compress: hashtable_add_entry for
current[0..match_length). -/
def addEntries (data : List Nat) (index : Nat) : Nat → Nat → Ctx → Option Ctx
  | _, 0, c => some c
  | i, k + 1, c =>
    match data.get? (index + i) with
    | none => none
    | some b =>
      match hashtable_add_entry c b (index + i) with
      | none => none
      | some c2 => addEntries data index (i + 1) k c2

/-- Main loop of lz77_compress.  The look-ahead size is
min(LOOK_AHEAD_BUFFER_SIZE, size - index); a zero best length emits a literal
triple, otherwise the match triple (offset rebased to index - match_offset - 1,
next byte current[match_length], or 0 in the dead size-comparison branch) is
emitted after recording the matched bytes and the next byte.  The fuel is at
least the input size plus one, and every iteration consumes at least one input
byte. -/
def lz77_go (data : List Nat) : Nat → Nat → Ctx → List Nat → Option (List Nat)
  | 0, _, _, _ => none
  | fuel + 1, index, c, out =>
    if data.length ≤ index then some out
    else
      let lookSize := min 16 (data.length - index)
      match find_prefix_linked_list c data index lookSize with
      | none => none
      | some (c1, mo, ml) =>
        if ml = 0 then
          match data.get? index with
          | none => none
          | some b =>
            match emit_triple out 0 0 b with
            | none => none
            | some out2 =>
              match hashtable_add_entry c1 b index with
              | none => none
              | some c2 => lz77_go data fuel (index + 1) c2 out2
        else
          match addEntries data index 0 ml c1 with
          | none => none
          | some c2 =>
            let offset := index - mo - 1
            match (if ml = data.length then some 0 else data.get? (index + ml)) with
            | none => none
            | some nb =>
              match hashtable_add_entry c2 nb (index + ml) with
              | none => none
              | some c3 =>
                match emit_triple out offset ml nb with
                | none => none
                | some out2 => lz77_go data fuel (index + ml + 1) c3 out2

/-- The function lz77_compress of src/lz.c. -/
def lz77_compress (data : List Nat) : Option (List Nat) :=
  lz77_go data (data.length + 1) 0
    { buckets := fun _ => [], freeNodes := 0, poolUsed := 0 } []

/-- Byte-by-byte back-reference copy of lz77_uncompress (the reserve up front
means the source pointer walks the output as it grows). -/
def copyGo : List Nat → Nat → Nat → Option (List Nat)
  | out, _, 0 => some out
  | out, pos, k + 1 =>
    match out.get? pos with
    | none => none
    | some b => copyGo (out ++ [b]) (pos + 1) k

/-- Main loop of lz77_uncompress: decode 3-byte triples; a read past the end of
the compressed buffer, or a back reference before the start of the output, is
none.  With length 0 the source pointer is computed but never dereferenced, so
only the next byte is appended. -/
def lz77_uncompress_go (comp : List Nat) : Nat → Nat → List Nat → Option (List Nat)
  | 0, _, _ => none
  | fuel + 1, i, out =>
    if comp.length ≤ i then some out
    else
      match comp.get? i, comp.get? (i + 1), comp.get? (i + 2) with
      | some b0, some b1, some b2 =>
        let combined := ((b0 % 256) <<< 8) ||| (b1 % 256)
        let offset := combined >>> 4
        let length := combined % 16
        if length = 0 then
          lz77_uncompress_go comp fuel (i + 3) (out ++ [b2])
        else
          match (if out.length < offset + 1 then none
            else copyGo out (out.length - offset - 1) length) with
          | none => none
          | some out2 => lz77_uncompress_go comp fuel (i + 3) (out2 ++ [b2])
      | _, _, _ => none

/-- The function lz77_uncompress of src/lz.c. -/
def lz77_uncompress (comp : List Nat) : Option (List Nat) :=
  lz77_uncompress_go comp (comp.length + 1) 0 []

end LZ

namespace Huff

/-- The frequency counting loop of frequencies_count_and_sort in src/huffman.c:
count[input[i]]++ over the input bytes (the array starts zeroed by
frequencies_init). -/
def countsOf (input : List Nat) : Nat → Nat :=
  input.foldl (fun f b => fun x => if x = b % 256 then f (b % 256) + 1 else f x)
    (fun _ => 0)

/-- One inner pass of the bubble sort of frequencies_count_and_sort: adjacent
compare-and-swap at positions j and j+1 for j below the given bound, realised as
the standard carry walk over the list.  The comparator orders by (frequency,
symbol): swap when f1 > f2 or f1 = f2 with the left symbol larger. -/
def bubblePass (cnt : Nat → Nat) : List Nat → Nat → List Nat
  | l, 0 => l
  | a :: b :: t, m + 1 =>
    if cnt b < cnt a ∨ (cnt a = cnt b ∧ b < a) then b :: bubblePass cnt (a :: t) m
    else a :: bubblePass cnt (b :: t) m
  | l, _ + 1 => l

/-- The outer loop of the bubble sort: pass i has inner bound
ALPHABET_SIZE - i - 1, so the bounds are 255, 254, ..., 0. -/
def bubbleSortGo (cnt : Nat → Nat) : Nat → List Nat → List Nat
  | 0, l => l
  | k + 1, l => bubbleSortGo cnt k (bubblePass cnt l k)

/-- The sorted index array of frequencies_count_and_sort, starting from the
identity permutation sorted[i] = i. -/
def sortedOf (cnt : Nat → Nat) : List Nat :=
  bubbleSortGo cnt 256 (List.range 256)

/-- The num_used_symbols loop: 256 - (first sorted position with a non-zero
count).  When every count is zero the field is never written (it is
uninitialised), which is none. -/
def num_used (cnt : Nat → Nat) (sorted : List Nat) : Option Nat :=
  match sorted.findIdx? (fun s => cnt s ≠ 0) with
  | some i => some (256 - i)
  | none => none

/-- The package_merge of src/huffman.c.  Its body is line for line that of
src/package_merge.c except that every frequency access freqs[k] becomes
freqs[sorted[k]], with sorted already offset to the used (non-zero) tail; it is
therefore embedded as PM.package_merge applied to the frequencies read through
that indirection. -/
def package_merge (cnt : Nat → Nat) (sortedTail : List Nat) (limit : Nat)
    (init : List Nat) : Option (List Nat) :=
  PM.package_merge (sortedTail.map cnt) limit init

/-- Inner write run of package_merge_generate_lengths:
code_lengths[sorted[symbol_index++]] = code_len, repeated num times. -/
def writeRun (sorted : List Nat) (len : Nat) : Nat → Nat → (Nat → Nat) → (Nat → Nat)
  | _, 0, lens => lens
  | si, j + 1, lens =>
    writeRun sorted len (si + 1) j (fun s => if s = sorted.getD si 0 then len else lens s)

/-- Outer loop of package_merge_generate_lengths: at list index i the symbol
count is active_leaves[i] - active_leaves[i-1] (uint32 subtraction) and the code
length is limit - i; a write past the end of the alphabet (which would read
sorted out of bounds and trips the assert) is none. -/
def genLenGo (a sorted : List Nat) (limit alphabet : Nat) :
    Nat → Nat → Nat → (Nat → Nat) → Option (Nat → Nat)
  | 0, _, _, lens => some lens
  | k + 1, i, si, lens =>
    let num := if i = 0 then a.getD 0 0 else (a.getD i 0 + PM.U32 - a.getD (i - 1) 0) % PM.U32
    if alphabet < si + num then none
    else genLenGo a sorted limit alphabet k (i + 1) (si + num)
      (writeRun sorted (limit - i) si num lens)

/-- The function package_merge_generate_lengths of src/huffman.c, scattering the
code lengths through the sorted permutation starting at symbol index
alphabet_size - used_symbols. -/
def package_merge_generate_lengths (a sorted : List Nat) (limit used alphabet : Nat)
    (lens : Nat → Nat) : Option (Nat → Nat) :=
  genLenGo a sorted limit alphabet limit 0 (alphabet - used) lens

/-- Loop of build_canonical_prefix_code of src/huffman.c, iterating i from 255
down to 0 (k + 1 iterations left means i = k): length = lengths[sorted[i]] but
next_length = lengths[i - 1] with the raw index i - 1, exactly as in the source;
codewords[sorted[i]] receives (num_bits = length truncated to uint8, bits = code);
then code = (code + 1) << (next_length - length) on uint32, whose shift count is
the uint32 difference and is undefined (none) when it is 32 or more, as happens
whenever next_length < length. -/
def build_canonical_go (lens : Nat → Nat) (sorted : List Nat) :
    Nat → Nat → (Nat → Nat × Nat) → Option (Nat → Nat × Nat)
  | 0, _, cw => some cw
  | k + 1, code, cw =>
    let s := sorted.getD k 0
    let length := lens s
    let next_length := if k = 0 then length else lens (k - 1)
    let cw2 := fun x => if x = s then (length % 256, code) else cw x
    let sh := (next_length + PM.U32 - length) % PM.U32
    if 32 ≤ sh then none
    else build_canonical_go lens sorted k (((code + 1) <<< sh) % PM.U32) cw2

/-- The function build_canonical_prefix_code of src/huffman.c (its
num_used_symbols parameter is unused in the source).  The codeword array is
written for every symbol, so its uninitialised contents are irrelevant and are
modelled as zeros. -/
def build_canonical_prefix_code (lens : Nat → Nat) (sorted : List Nat) :
    Option (Nat → Nat × Nat) :=
  build_canonical_go lens sorted 256 0 (fun _ => (0, 0))

/-- The code-length stage of huffman_compress: count, sort, package-merge with
limit 32 into a zeroed 32-entry active-leaf array, then scatter the lengths into
a zeroed 256-entry array. -/
def pipeline_lengths (input : List Nat) : Option (Nat → Nat) :=
  let cnt := countsOf input
  let sorted := sortedOf cnt
  match num_used cnt sorted with
  | none => none
  | some used =>
    match package_merge cnt (sorted.drop (256 - used)) 32 (List.replicate 32 0) with
    | none => none
    | some leaves =>
      package_merge_generate_lengths leaves sorted 32 used 256 (fun _ => 0)

/-- The codeword table stage of huffman_compress: the pipeline lengths fed to
build_canonical_prefix_code. -/
def pipeline_codewords (input : List Nat) : Option (Nat → Nat × Nat) :=
  let cnt := countsOf input
  let sorted := sortedOf cnt
  match pipeline_lengths input with
  | none => none
  | some lens => build_canonical_prefix_code lens sorted

end Huff

namespace Defl

/-- Two's-complement wrap of an integer into the int16_t range. -/
def toI16 (x : Int) : Int :=
  (x + 32768) % 65536 - 32768

/-- HASHTABLE_EMPTY_BUCKET of src/deflate.c: (int16_t)(1ull << 15) = -32768. -/
def EMPTY : Int := -32768

/-- One sequence_t as pushed by lz_emit_reference, with the ghost field pos
recording the value of lookahead - input at the moment of emission (the match
position; it is determined by the run and lets the specification speak about
the emission position directly). -/
structure Seq where
  pos : Nat
  start_index : Nat
  num_literals : Nat
  match_length : Nat
  match_offset : Nat
deriving Repr, DecidableEq

/-- The lz_context_t of src/deflate.c, with pointers replaced by absolute input
indices: look is lookahead - input, base is base - input.  head and prev hold
int16_t values; match_search_depth is fixed at 64 as in lz_init_context. -/
structure Ctx where
  look : Nat
  base : Nat
  head : Nat → Int
  prev : Nat → Int
  seqStart : Nat
  seqLits : Nat
  seqs : List Seq

/-- The function lz_hash on three bytes (uint32 arithmetic; the coefficients keep
the sum far below 2^32 for byte inputs). -/
def lz_hash (a b c : Nat) : Nat :=
  (3483 * (a % 256) + 23081 * (b % 256) + 6954 * (c % 256)) % 4294967296

/-- The three-byte hash read lz_hash(ctx->lookahead + i): none when any of the
three bytes lies outside the input, i.e. unless i + 3 <= length. -/
def hashAt (input : List Nat) (i : Nat) : Option Nat :=
  if i + 3 ≤ input.length then
    some (lz_hash (input.getD i 0) (input.getD (i + 1) 0) (input.getD (i + 2) 0))
  else none

/-- Candidate comparison loop of lz_find_longest_match:
`while (candidate_length < max_length && candidate[candidate_length] == match[candidate_length])`,
counting equal bytes at absolute indices c (the candidate) and p (the match); a
read outside the input is none. -/
def countEqM (input : List Nat) : Nat → Nat → Nat → Option Nat
  | _, _, 0 => some 0
  | c, p, max + 1 =>
    match input.get? c, input.get? p with
    | some x, some y =>
      if x = y then (countEqM input (c + 1) (p + 1) max).map (fun v => v + 1)
      else some 0
    | _, _ => none

/-- Chain walk of lz_find_longest_match:
`while (match_pos > limit && search_depth-- != 0)`.  A candidate dereference
before the input (base + match_pos < 0) and a prev access at a negative index
(`ctx->prev[match_pos]` with a rebased negative position, which indexes outside
the prev array) are undefined and return none.  best_match_offset is
cur_relpos - match_pos converted to uint32. -/
def findGo (input : List Nat) (prevA : Nat → Int) (base look : Nat) (rel limit : Int)
    (maxLen : Nat) : Nat → Int → Nat × Nat → Option (Nat × Nat)
  | 0, _, best => some best
  | depth + 1, mp, best =>
    if limit < mp then
      if ((base : Int) + mp) < 0 then none
      else
        match countEqM input ((base : Int) + mp).toNat look maxLen with
        | none => none
        | some clen =>
          if 0 ≤ mp ∧ mp < 32768 then
            findGo input prevA base look rel limit maxLen depth (prevA mp.toNat)
              (if best.2 < clen then ((((rel - mp) % 4294967296).toNat), clen) else best)
          else none
    else some best

/-- Validity of the running best pair of the chain walk: the length is within the
clamp, and a non-trivial best is a real in-window back reference whose bytes
equal the upcoming bytes. -/
def best_ok (input : List Nat) (look maxLen : Nat) (b : Nat × Nat) : Prop :=
  b.2 ≤ maxLen ∧ (1 ≤ b.2 → 1 ≤ b.1 ∧ b.1 ≤ 32767 ∧ b.1 ≤ look ∧
    ∀ k, k < b.2 → input.get? (look - b.1 + k) = input.get? (look + k))

/-- The function lz_find_longest_match of src/deflate.c: the int16 relative
position and window limit, the match-length clamp near the end of the input, the
early return below MIN_MATCH_LEN, then the chain walk from the head bucket of the
three-byte hash. -/
def lz_find_longest_match (input : List Nat) (ctx : Ctx) : Option (Nat × Nat) :=
  let rel : Int := toI16 ((ctx.look : Int) - (ctx.base : Int))
  if rel < 0 then none
  else
    let limit : Int := toI16 (rel - 32768)
    let maxLen := min 511 (input.length - ctx.look)
    if maxLen < 3 then some (0, 0)
    else
      match hashAt input ctx.look with
      | none => none
      | some h =>
        findGo input ctx.prev ctx.base ctx.look rel limit maxLen 64
          (ctx.head (h % 32768)) (0, 0)

/-- The function lz_reindex_hashtable: negative entries become empty, others are
shifted down by cur_relpos (int16 arithmetic). -/
def lz_reindex_hashtable (ctx : Ctx) (cur_relpos : Nat) : Ctx :=
  { ctx with
    head := fun i => if ctx.head i < 0 then EMPTY else toI16 (ctx.head i - cur_relpos),
    prev := fun i => if ctx.prev i < 0 then EMPTY else toI16 (ctx.prev i - cur_relpos) }

/-- One iteration of the recording while-loop of lz_record_bytes: hash the three
bytes at the lookahead, link the position into prev/head, advance, and rebase
when the relative position reaches MATCH_OFFSET_MAX = 32767. -/
def recordOne (input : List Nat) (ctx : Ctx) (relpos : Nat) : Option (Ctx × Nat) :=
  match hashAt input ctx.look with
  | none => none
  | some h =>
    if 32768 ≤ relpos then none
    else
      let slot := h % 32768
      let ctx1 := { ctx with
        prev := fun i => if i = relpos then ctx.head slot else ctx.prev i,
        head := fun i => if i = slot then toI16 relpos else ctx.head i,
        look := ctx.look + 1 }
      if relpos + 1 = 32767 then
        let ctx2 := lz_reindex_hashtable ctx1 32767
        some ({ ctx2 with base := ctx2.base + 32767 }, 0)
      else some (ctx1, relpos + 1)

/-- One iteration of the skipping while-loop of lz_record_bytes: advance without
recording, with the same rebase check. -/
def skipOne (ctx : Ctx) (relpos : Nat) : Ctx × Nat :=
  let ctx1 := { ctx with look := ctx.look + 1 }
  if relpos + 1 = 32767 then
    let ctx2 := lz_reindex_hashtable ctx1 32767
    ({ ctx2 with base := ctx2.base + 32767 }, 0)
  else (ctx1, relpos + 1)

/-- The recording loop of lz_record_bytes, remaining iterations first. -/
def recordLoop (input : List Nat) : Nat → Ctx → Nat → Option (Ctx × Nat)
  | 0, ctx, relpos => some (ctx, relpos)
  | k + 1, ctx, relpos =>
    match recordOne input ctx relpos with
    | none => none
    | some (ctx2, rel2) => recordLoop input k ctx2 rel2

/-- The skipping loop of lz_record_bytes. -/
def skipLoop : Nat → Ctx → Nat → Ctx × Nat
  | 0, ctx, relpos => (ctx, relpos)
  | k + 1, ctx, relpos =>
    let p := skipOne ctx relpos
    skipLoop k p.1 p.2

/-- The function lz_record_bytes of src/deflate.c: near the end of the input the
last MIN_MATCH_LEN positions are only skipped, not recorded (their three-byte
hash would read past the input); assert(num_bytes > 0) failing is none. -/
def lz_record_bytes (input : List Nat) (ctx : Ctx) (num relpos : Nat) :
    Option (Ctx × Nat) :=
  if num = 0 then none
  else
    let size := input.length
    let pen := if size < ctx.look + num + 3 then ctx.look + num + 3 - size else 0
    let remaining := num - min pen num
    match recordLoop input remaining ctx relpos with
    | none => none
    | some (ctx2, rel2) =>
      some (skipLoop (min pen num) ctx2 rel2)

/-- The function lz_emit_literal: only the literal count of the pending sequence
changes (the byte argument is unused in the source). -/
def lz_emit_literal (ctx : Ctx) : Ctx :=
  { ctx with seqLits := ctx.seqLits + 1 }

/-- The function lz_emit_reference: push the pending sequence with the match pair
(truncated to the uint16 parameters); pos records the current lookahead index. -/
def lz_emit_reference (ctx : Ctx) (offset length : Nat) : Ctx :=
  { ctx with seqs := ctx.seqs ++
      [{ pos := ctx.look, start_index := ctx.seqStart, num_literals := ctx.seqLits,
         match_length := length % 65536, match_offset := offset % 65536 }] }

/-- The function lz_start_new_sequence (called while lookahead still is at the
match position). -/
def lz_start_new_sequence (ctx : Ctx) : Ctx :=
  { ctx with seqStart := ctx.look, seqLits := 0 }

/-- Literal emission loop of lz_compress: reads ctx.base[cur_relpos + i] (an
out-of-input read is none) and counts the literal. -/
def emitLiterals (input : List Nat) (base relpos : Nat) : Nat → Nat → Ctx → Option Ctx
  | _, 0, ctx => some ctx
  | i, k + 1, ctx =>
    match input.get? (base + relpos + i) with
    | none => none
    | some _ => emitLiterals input base relpos (i + 1) k (lz_emit_literal ctx)

/-- Main loop of lz_compress.  The result pairs the emitted sequences with a flag
that is false when the run aborted on undefined behaviour (the sequences emitted
up to that point are still returned).  Every iteration advances the lookahead by
at least one byte, so fuel of the input length plus one never runs out. -/
def lzGo (input : List Nat) : Nat → Ctx → Nat → List Seq × Bool
  | 0, ctx, _ => (ctx.seqs, false)
  | fuel + 1, ctx, relpos =>
    if ctx.look = input.length then (ctx.seqs, true)
    else
      match lz_find_longest_match input ctx with
      | none => (ctx.seqs, false)
      | some (moff, mlen) =>
        if mlen < 3 then
          let num := if mlen = 0 then 1 else mlen
          match emitLiterals input ctx.base relpos 0 num ctx with
          | none => (ctx.seqs, false)
          | some ctx2 =>
            match lz_record_bytes input ctx2 num relpos with
            | none => (ctx2.seqs, false)
            | some (ctx3, rel3) => lzGo input fuel ctx3 rel3
        else
          let ctx2 := lz_start_new_sequence (lz_emit_reference ctx moff mlen)
          match lz_record_bytes input ctx2 mlen relpos with
          | none => (ctx2.seqs, false)
          | some (ctx3, rel3) => lzGo input fuel ctx3 rel3

/-- The function lz_compress of src/deflate.c: empty hash table (head and prev
filled with HASHTABLE_EMPTY_BUCKET), cur_relpos = 0, pending sequence starting at
the input. -/
def lz_compress (input : List Nat) : List Seq × Bool :=
  lzGo input (input.length + 1)
    { look := 0, base := 0, head := fun _ => EMPTY, prev := fun _ => EMPTY,
      seqStart := 0, seqLits := 0, seqs := [] } 0

/-- Validity of one emitted match as the amended claim states it: DEFLATE-style
bounds with the code's actual maximum length 511, and the matched bytes equal to
the next bytes at the emission position. -/
def seq_bounds_ok (input : List Nat) (s : Seq) : Prop :=
  3 ≤ s.match_length ∧ s.match_length ≤ 511 ∧
    1 ≤ s.match_offset ∧ s.match_offset ≤ 32768 ∧
    s.match_offset ≤ s.pos ∧ s.pos + s.match_length ≤ input.length ∧
    ∀ k, k < s.match_length →
      input.get? (s.pos - s.match_offset + k) = input.get? (s.pos + k)

instance seq_bounds_ok_decidable (input : List Nat) (s : Seq) :
    Decidable (seq_bounds_ok input s) := by
  unfold seq_bounds_ok
  infer_instance

/-- Validity of the head and prev entries: empty, or an int16-representable
relative position that denotes a recorded absolute position before the current
lookahead and inside the input prefix. -/
def entry_ok (base look : Nat) (e : Int) : Prop :=
  e = EMPTY ∨ (-32768 < e ∧ e < 32767 ∧ 0 ≤ (base : Int) + e ∧ (base : Int) + e < (look : Nat))

/-- Run invariant of lz_compress: cur_relpos tracks lookahead - base and stays
below MATCH_OFFSET_MAX, the lookahead stays inside the input, and every hash
table entry is valid. -/
def Inv (input : List Nat) (ctx : Ctx) (relpos : Nat) : Prop :=
  ctx.base + relpos = ctx.look ∧ relpos ≤ 32766 ∧ ctx.look ≤ input.length ∧
    (∀ i, i < 32768 → entry_ok ctx.base ctx.look (ctx.head i)) ∧
    (∀ i, i < 32768 → entry_ok ctx.base ctx.look (ctx.prev i))

end Defl

namespace Bits

theorem shiftRight_mod_two (x k : Nat) :
    (x >>> k) % 2 = if x.testBit k then 1 else 0 := by
  rw [Nat.testBit_to_div_mod, Nat.shiftRight_eq_div_pow]
  rcases Nat.mod_two_eq_zero_or_one (x / 2 ^ k) with h | h <;> simp [h]

theorem lor_add_disjoint (x m i : Nat) (hx : x < 2 ^ i) :
    x ||| m * 2 ^ i = x + m * 2 ^ i := by
  have h2i : 0 < 2 ^ i := Nat.pos_pow_of_pos i (by norm_num)
  apply Nat.eq_of_testBit_eq
  intro j
  rw [Nat.testBit_lor]
  rcases Nat.lt_or_ge j i with hj | hj
  · have h2j : 0 < 2 ^ j := Nat.pos_pow_of_pos j (by norm_num)
    have e1 : m * 2 ^ i = m * 2 ^ (i - j) * 2 ^ j := by
      rw [Nat.mul_assoc, ← pow_add]
      congr 2
      omega
    have e2 : m * 2 ^ (i - j) = m * 2 ^ (i - j - 1) * 2 := by
      rw [Nat.mul_assoc, ← pow_succ]
      congr 2
      omega
    have hshift : (m * 2 ^ i).testBit j = false := by
      rw [← Nat.shiftLeft_eq, Nat.testBit_shiftLeft]
      simp
      omega
    rw [hshift, Bool.or_false, Nat.testBit_to_div_mod, Nat.testBit_to_div_mod]
    rw [e1, Nat.add_mul_div_right _ _ h2j, e2, Nat.add_mul_mod_self_right]
  · have hxj : x.testBit j = false :=
      Nat.testBit_lt_two_pow
        (lt_of_lt_of_le hx (Nat.pow_le_pow_right (by norm_num) hj))
    rw [hxj, Bool.false_or, Nat.testBit_to_div_mod, Nat.testBit_to_div_mod]
    have e3 : (2 : Nat) ^ j = 2 ^ i * 2 ^ (j - i) := by
      rw [← pow_add]
      congr 1
      omega
    have e4 : m * 2 ^ i / 2 ^ i = m := Nat.mul_div_cancel m h2i
    have e5 : (x + m * 2 ^ i) / 2 ^ i = m := by
      rw [Nat.add_mul_div_right _ _ h2i, Nat.div_eq_of_lt hx, Nat.zero_add]
    rw [e3, ← Nat.div_div_eq_div_mul, ← Nat.div_div_eq_div_mul, e4, e5]

theorem mod_two_pow_succ (v i : Nat) :
    v % 2 ^ (i + 1) = v % 2 ^ i + v / 2 ^ i % 2 * 2 ^ i := by
  rw [pow_succ, Nat.mod_mul, Nat.mul_comm]

theorem mask_testBit (r j : Nat) (hr : r < 8) :
    (255 - (1 <<< r)).testBit j = (decide (j < 8) && decide (j ≠ r)) := by
  rcases Nat.lt_or_ge j 8 with hj | hj
  · interval_cases r <;> interval_cases j <;> decide
  · have hlt : 255 - (1 <<< r) < 2 ^ j := by
      have : (255 : Nat) - (1 <<< r) < 2 ^ 8 := by
        have := Nat.sub_le 255 (1 <<< r)
        omega
      exact lt_of_lt_of_le this (Nat.pow_le_pow_right (by norm_num) hj)
    rw [Nat.testBit_lt_two_pow hlt]
    simp
    omega

theorem newByte_testBit_eq (b0 bit r : Nat) (hr : r < 8) :
    ((b0 &&& (255 - (1 <<< r))) ||| ((bit % 2) <<< r)).testBit r =
      decide (bit % 2 = 1) := by
  rw [Nat.testBit_lor, Nat.testBit_land, mask_testBit r r hr, Nat.testBit_shiftLeft]
  rcases Nat.mod_two_eq_zero_or_one bit with h | h <;> simp [h, Nat.sub_self]

theorem newByte_testBit_ne (b0 bit r j : Nat) (hr : r < 8) (hne : j ≠ r) :
    ((b0 &&& (255 - (1 <<< r))) ||| ((bit % 2) <<< r)).testBit j =
      (b0.testBit j && decide (j < 8)) := by
  rw [Nat.testBit_lor, Nat.testBit_land, mask_testBit r j hr, Nat.testBit_shiftLeft]
  have hb2 : bit % 2 < 2 := Nat.mod_lt _ (by norm_num)
  rcases Nat.lt_or_ge j r with hj | hj
  · simp [Nat.not_le.mpr hj, hne]
  · have hjr : 0 < j - r := by omega
    have h2 : (2 : Nat) ≤ 2 ^ (j - r) := by
      calc (2 : Nat) = 2 ^ 1 := (pow_one 2).symm
        _ ≤ 2 ^ (j - r) := Nat.pow_le_pow_right (by norm_num) hjr
    have : (bit % 2).testBit (j - r) = false :=
      Nat.testBit_lt_two_pow (lt_of_lt_of_le hb2 h2)
    simp [this, hne, hj]

theorem newByte_lt (b0 bit r : Nat) (hr : r < 8) :
    (b0 &&& (255 - (1 <<< r))) ||| ((bit % 2) <<< r) < 256 := by
  have h1 : b0 &&& (255 - (1 <<< r)) < 256 :=
    lt_of_le_of_lt Nat.and_le_right (by have := Nat.sub_le 255 (1 <<< r); omega)
  have h2 : (bit % 2) <<< r < 256 := by
    rw [Nat.shiftLeft_eq]
    have hb : bit % 2 ≤ 1 := by omega
    calc bit % 2 * 2 ^ r ≤ 1 * 2 ^ r := Nat.mul_le_mul_right _ hb
      _ = 2 ^ r := one_mul _
      _ < 2 ^ 8 := Nat.pow_lt_pow_right (by norm_num) hr
      _ = 256 := by norm_num
  have h256 : (256 : Nat) = 2 ^ 8 := by norm_num
  rw [h256] at h1 h2 ⊢
  exact Nat.or_lt_two_pow h1 h2

theorem bitarray_bit_eq_testBit (A : BitArr) (i : Nat) :
    bitarray_bit A i = if (A.mem (i / 8) % 256).testBit (i % 8) then 1 else 0 := by
  show ((A.mem (i / 8) % 256) >>> (i % 8)) % 2 = _
  exact shiftRight_mod_two _ _

theorem push_raw_size (A : BitArr) (b : Nat) :
    (bitarray_push_raw A b).size = A.size + 1 := rfl

theorem push_raw_mem_at (A : BitArr) (bit : Nat) :
    (bitarray_push_raw A bit).mem (A.size / 8) =
      (A.mem (A.size / 8) % 256 &&& (255 - (1 <<< (A.size % 8)))) |||
        ((bit % 2) <<< (A.size % 8)) := by
  simp [bitarray_push_raw]

theorem push_raw_mem_ne (A : BitArr) (bit j : Nat) (h : j ≠ A.size / 8) :
    (bitarray_push_raw A bit).mem j = A.mem j := by
  simp [bitarray_push_raw, h]

theorem bit_push_raw_self (A : BitArr) (bit : Nat) :
    bitarray_bit (bitarray_push_raw A bit) A.size = bit % 2 := by
  have hr : A.size % 8 < 8 := Nat.mod_lt _ (by norm_num)
  rw [bitarray_bit_eq_testBit, push_raw_mem_at,
    Nat.mod_eq_of_lt (newByte_lt _ _ _ hr), newByte_testBit_eq _ _ _ hr]
  rcases Nat.mod_two_eq_zero_or_one bit with h | h <;> simp [h]

theorem bit_push_raw_frame (A : BitArr) (bit i : Nat) (h : i < A.size) :
    bitarray_bit (bitarray_push_raw A bit) i = bitarray_bit A i := by
  have hi8 : i % 8 < 8 := Nat.mod_lt _ (by norm_num)
  rcases eq_or_ne (i / 8) (A.size / 8) with hdiv | hdiv
  · have hr : A.size % 8 < 8 := Nat.mod_lt _ (by norm_num)
    have hmod : i % 8 ≠ A.size % 8 := by omega
    rw [bitarray_bit_eq_testBit, bitarray_bit_eq_testBit, hdiv, push_raw_mem_at,
      Nat.mod_eq_of_lt (newByte_lt _ _ _ hr), newByte_testBit_ne _ _ _ _ hr hmod]
    simp [hi8]
  · rw [bitarray_bit_eq_testBit, bitarray_bit_eq_testBit, push_raw_mem_ne _ _ _ hdiv]

theorem pushLsb_size (A : BitArr) (v : Nat) :
    ∀ n, (bitarray_push_bits_lsb A v n).size = A.size + n := by
  intro n
  induction n with
  | zero => rfl
  | succ n ih =>
    show (bitarray_push_raw (bitarray_push_bits_lsb A v n) (v >>> n)).size = _
    rw [push_raw_size, ih]
    omega

theorem pushLsb_frame (A : BitArr) (v : Nat) :
    ∀ n i, i < A.size →
      bitarray_bit (bitarray_push_bits_lsb A v n) i = bitarray_bit A i := by
  intro n
  induction n with
  | zero => intro i _; rfl
  | succ n ih =>
    intro i hi
    show bitarray_bit (bitarray_push_raw (bitarray_push_bits_lsb A v n) (v >>> n)) i = _
    rw [bit_push_raw_frame _ _ _ (by rw [pushLsb_size]; omega), ih i hi]

theorem pushLsb_bit (A : BitArr) (v : Nat) :
    ∀ n i, i < n →
      bitarray_bit (bitarray_push_bits_lsb A v n) (A.size + i) = (v >>> i) % 2 := by
  intro n
  induction n with
  | zero => intro i hi; omega
  | succ n ih =>
    intro i hi
    show bitarray_bit (bitarray_push_raw (bitarray_push_bits_lsb A v n) (v >>> n)) (A.size + i) = _
    rcases Nat.lt_or_ge i n with hlt | hge
    · rw [bit_push_raw_frame _ _ _ (by rw [pushLsb_size]; omega), ih i hlt]
    · have hie : i = n := by omega
      subst hie
      have hsz : (bitarray_push_bits_lsb A v i).size = A.size + i := pushLsb_size A v i
      rw [← hsz, bit_push_raw_self]

theorem msbGo_size (v : Nat) :
    ∀ k A, (msbPushGo v A k).size = A.size + k := by
  intro k
  induction k with
  | zero => intro A; rfl
  | succ k ih =>
    intro A
    show (msbPushGo v (bitarray_push_raw A (v >>> k)) k).size = _
    rw [ih, push_raw_size]
    omega

theorem msbGo_frame (v : Nat) :
    ∀ k A i, i < A.size → bitarray_bit (msbPushGo v A k) i = bitarray_bit A i := by
  intro k
  induction k with
  | zero => intro A i _; rfl
  | succ k ih =>
    intro A i hi
    show bitarray_bit (msbPushGo v (bitarray_push_raw A (v >>> k)) k) i = _
    rw [ih _ _ (by rw [push_raw_size]; omega), bit_push_raw_frame _ _ _ hi]

theorem msbGo_bit (v : Nat) :
    ∀ k A i, i < k →
      bitarray_bit (msbPushGo v A k) (A.size + i) = (v >>> (k - 1 - i)) % 2 := by
  intro k
  induction k with
  | zero => intro A i hi; omega
  | succ k ih =>
    intro A i hi
    show bitarray_bit (msbPushGo v (bitarray_push_raw A (v >>> k)) k) (A.size + i) = _
    rcases Nat.eq_zero_or_pos i with h0 | hpos
    · subst h0
      rw [Nat.add_zero,
        msbGo_frame v k _ A.size (by rw [push_raw_size]; omega),
        bit_push_raw_self]
      have hk : k + 1 - 1 - 0 = k := by omega
      rw [hk]
    · obtain ⟨j, rfl⟩ : ∃ j, i = j + 1 := ⟨i - 1, by omega⟩
      have : A.size + (j + 1) = (bitarray_push_raw A (v >>> k)).size + j := by
        rw [push_raw_size]; omega
      rw [this, ih _ j (by omega)]
      congr 2
      omega

theorem lsbReadGo_spec (A : BitArr) (idx v n : Nat) (hn : n ≤ 31)
    (hbits : ∀ i, i < n → bitarray_bit A (idx + i) = (v >>> i) % 2) :
    ∀ rem i, i + rem = n → lsbReadGo A idx rem i (v % 2 ^ i) = some (v % 2 ^ n) := by
  intro rem
  induction rem with
  | zero =>
    intro i hi
    have : i = n := by omega
    subst this
    rfl
  | succ rem ih =>
    intro i hi
    show (if 32 ≤ i ∨ (i = 31 ∧ bitarray_bit A (idx + i) = 1) then none
      else lsbReadGo A idx rem (i + 1) ((v % 2 ^ i) ||| (bitarray_bit A (idx + i) <<< i)))
      = some (v % 2 ^ n)
    rw [if_neg (by omega)]
    have hb : bitarray_bit A (idx + i) = v / 2 ^ i % 2 := by
      rw [hbits i (by omega), Nat.shiftRight_eq_div_pow]
    have hacc : (v % 2 ^ i) ||| (bitarray_bit A (idx + i) <<< i) = v % 2 ^ (i + 1) := by
      rw [hb, Nat.shiftLeft_eq,
        lor_add_disjoint _ _ _ (Nat.mod_lt _ (Nat.pos_pow_of_pos i (by norm_num))),
        ← mod_two_pow_succ]
    rw [hacc, ih (i + 1) (by omega)]

theorem msbReadGo_spec (A : BitArr) (idx v n : Nat) (hn : n ≤ 31)
    (hbits : ∀ i, i < n → bitarray_bit A (idx + i) = (v >>> (n - 1 - i)) % 2) :
    ∀ rem i, i + rem = n →
      msbReadGo A idx n rem i (v % 2 ^ n - v % 2 ^ (n - i)) = some (v % 2 ^ n) := by
  intro rem
  induction rem with
  | zero =>
    intro i hi
    have : i = n := by omega
    subst hi
    show some (v % 2 ^ (i + 0) - v % 2 ^ (i + 0 - i)) = some (v % 2 ^ (i + 0))
    congr 1
    have : i + 0 - i = 0 := by omega
    rw [this, pow_zero, Nat.mod_one, Nat.sub_zero]
  | succ rem ih =>
    intro i hi
    show (if 32 ≤ n - i - 1 ∨ (n - i - 1 = 31 ∧ bitarray_bit A (idx + i) = 1) then none
      else msbReadGo A idx n rem (i + 1)
        ((v % 2 ^ n - v % 2 ^ (n - i)) ||| (bitarray_bit A (idx + i) <<< (n - i - 1))))
      = some (v % 2 ^ n)
    rw [if_neg (by omega)]
    have hd : n - 1 - i = n - i - 1 := by omega
    have hb : bitarray_bit A (idx + i) = v / 2 ^ (n - i - 1) % 2 := by
      rw [hbits i (by omega), Nat.shiftRight_eq_div_pow, hd]
    have hni : n - i = n - i - 1 + 1 := by omega
    have hmm : v % 2 ^ n % 2 ^ (n - i) = v % 2 ^ (n - i) :=
      Nat.mod_mod_of_dvd _ (pow_dvd_pow 2 (by omega))
    have hdm := Nat.div_add_mod (v % 2 ^ n) (2 ^ (n - i))
    have hle : v % 2 ^ (n - i) ≤ v % 2 ^ n := by
      rw [← hmm]
      exact Nat.mod_le _ _
    have hsub : v % 2 ^ n - v % 2 ^ (n - i) = v % 2 ^ n / 2 ^ (n - i) * 2 ^ (n - i) := by
      rw [Nat.mul_comm]
      omega
    have hble : v / 2 ^ (n - i - 1) % 2 ≤ 1 := by omega
    have hxlt : v / 2 ^ (n - i - 1) % 2 * 2 ^ (n - i - 1) < 2 ^ (n - i - 1 + 1) := by
      rw [pow_succ]
      have h1 : v / 2 ^ (n - i - 1) % 2 * 2 ^ (n - i - 1) ≤ 1 * 2 ^ (n - i - 1) :=
        Nat.mul_le_mul_right _ hble
      have h2 : 0 < (2 : Nat) ^ (n - i - 1) := Nat.pos_pow_of_pos _ (by norm_num)
      omega
    have heq := lor_add_disjoint (v / 2 ^ (n - i - 1) % 2 * 2 ^ (n - i - 1))
      (v % 2 ^ n / 2 ^ (n - i)) (n - i - 1 + 1) hxlt
    have hms : v % 2 ^ (n - i) =
        v % 2 ^ (n - i - 1) + v / 2 ^ (n - i - 1) % 2 * 2 ^ (n - i - 1) := by
      have hms0 := mod_two_pow_succ v (n - i - 1)
      rw [← hni] at hms0
      exact hms0
    have hle2 : v % 2 ^ (n - i - 1) ≤ v % 2 ^ (n - i) := by omega
    have hacc : (v % 2 ^ n - v % 2 ^ (n - i)) ||| (bitarray_bit A (idx + i) <<< (n - i - 1))
        = v % 2 ^ n - v % 2 ^ (n - (i + 1)) := by
      rw [hb, Nat.shiftLeft_eq, Nat.lor_comm, hsub]
      rw [show v % 2 ^ n / 2 ^ (n - i) * 2 ^ (n - i)
          = v % 2 ^ n / 2 ^ (n - i) * 2 ^ (n - i - 1 + 1) from by rw [← hni]]
      rw [heq]
      rw [show v % 2 ^ n / 2 ^ (n - i) * 2 ^ (n - i - 1 + 1)
          = v % 2 ^ n / 2 ^ (n - i) * 2 ^ (n - i) from by rw [← hni]]
      have hni2 : n - (i + 1) = n - i - 1 := by omega
      rw [hni2]
      omega
    rw [hacc, ih (i + 1) (by omega)]

end Bits

namespace Defl

theorem toI16_eq (x : Int) (h1 : -32768 ≤ x) (h2 : x < 32768) : toI16 x = x := by
  unfold toI16
  omega

theorem countEqM_sound (input : List Nat) :
    ∀ max c p len, countEqM input c p max = some len →
      len ≤ max ∧ ∀ k, k < len → input.get? (c + k) = input.get? (p + k) := by
  intro max
  induction max with
  | zero =>
    intro c p len h
    refine ⟨?_, ?_⟩
    · cases h
      exact Nat.le_refl 0
    · intro k hk
      cases h
      omega
  | succ max ih =>
    intro c p len h
    rw [countEqM] at h
    rcases hc : input.get? c with _ | x
    · rw [hc] at h
      cases h
    rcases hp : input.get? p with _ | y
    · rw [hc, hp] at h
      cases h
    rw [hc, hp] at h
    dsimp only at h
    by_cases hxy : x = y
    · rw [if_pos hxy, Option.map_eq_some'] at h
      obtain ⟨len0, h0, rfl⟩ := h
      obtain ⟨hle, heq⟩ := ih (c + 1) (p + 1) len0 h0
      refine ⟨by omega, ?_⟩
      intro k hk
      rcases Nat.eq_zero_or_pos k with rfl | hkpos
      · rw [Nat.add_zero, Nat.add_zero, hc, hp, hxy]
      · have := heq (k - 1) (by omega)
        have e1 : c + 1 + (k - 1) = c + k := by omega
        have e2 : p + 1 + (k - 1) = p + k := by omega
        rw [e1, e2] at this
        exact this
    · rw [if_neg hxy] at h
      cases h
      exact ⟨Nat.zero_le _, by omega⟩

theorem entry_ok_mono (base look look2 : Nat) (e : Int) (h : entry_ok base look e)
    (hle : look ≤ look2) : entry_ok base look2 e := by
  rcases h with h | h
  · exact Or.inl h
  · right
    refine ⟨h.1, h.2.1, h.2.2.1, ?_⟩
    have := h.2.2.2
    omega

theorem reindex_entry_ok (base look : Nat) (e : Int) (h : entry_ok base look e) :
    entry_ok (base + 32767) look (if e < 0 then EMPTY else toI16 (e - 32767)) := by
  by_cases he : e < 0
  · rw [if_pos he]
    exact Or.inl rfl
  · rw [if_neg he]
    rcases h with h | h
    · rw [h] at he
      exact absurd (by norm_num [EMPTY] : (EMPTY : Int) < 0) he
    · right
      have hlt : e < 32767 := h.2.1
      have hge : (0 : Int) ≤ e := by omega
      rw [toI16_eq (e - 32767) (by omega) (by omega)]
      have h3 := h.2.2.1
      have h4 := h.2.2.2
      constructor
      · omega
      constructor
      · omega
      constructor
      · push_cast
        omega
      · push_cast at h4 ⊢
        omega

theorem findGo_sound (input : List Nat) (prevA : Nat → Int) (base look : Nat)
    (rel limit : Int) (maxLen : Nat)
    (hrel : (base : Int) + rel = (look : Int))
    (hrel0 : 0 ≤ rel)
    (hlimit : limit = rel - 32768)
    ( _hmax : look + maxLen ≤ input.length)
    (hp : ∀ i, i < 32768 → entry_ok base look (prevA i)) :
    ∀ depth mp best, entry_ok base look mp → best_ok input look maxLen best →
      ∀ r, findGo input prevA base look rel limit maxLen depth mp best = some r →
        best_ok input look maxLen r := by
  intro depth
  induction depth with
  | zero =>
    intro mp best _ hbest r hr
    rw [findGo] at hr
    cases hr
    exact hbest
  | succ depth ih =>
    intro mp best hmp hbest r hr
    rw [findGo] at hr
    by_cases hlm : limit < mp
    swap
    · rw [if_neg hlm] at hr
      cases hr
      exact hbest
    rw [if_pos hlm] at hr
    have hmpv : -32768 < mp ∧ mp < 32767 ∧ 0 ≤ (base : Int) + mp ∧
        (base : Int) + mp < (look : Int) := by
      rcases hmp with hmp | hmp
      · exfalso
        rw [hmp, hlimit] at hlm
        norm_num [EMPTY] at hlm
        omega
      · exact hmp
    rw [if_neg (by omega : ¬ ((base : Int) + mp) < 0)] at hr
    rcases hcnt : countEqM input ((base : Int) + mp).toNat look maxLen with _ | clen
    · rw [hcnt] at hr
      cases hr
    rw [hcnt] at hr
    dsimp only at hr
    by_cases hmpr : 0 ≤ mp ∧ mp < 32768
    swap
    · rw [if_neg hmpr] at hr
      cases hr
    rw [if_pos hmpr] at hr
    obtain ⟨hclen, heqs⟩ := countEqM_sound input maxLen _ _ clen hcnt
    have hbest2 : best_ok input look maxLen
        (if best.2 < clen then ((((rel - mp) % 4294967296).toNat), clen) else best) := by
      by_cases hlt : best.2 < clen
      swap
      · rw [if_neg hlt]
        exact hbest
      rw [if_pos hlt]
      constructor
      · exact hclen
      intro hpos
      have hmplt : mp < rel := by omega
      have hmpgt : rel - mp < 32768 := by omega
      have hmod : (rel - mp) % 4294967296 = rel - mp :=
        Int.emod_eq_of_lt (by omega) (by omega)
      have hoff : ((((rel - mp) % 4294967296).toNat) : Int) = rel - mp := by
        rw [hmod]
        exact Int.toNat_of_nonneg (by omega)
      refine ⟨?_, ?_, ?_, ?_⟩
      · omega
      · omega
      · omega
      · intro k hk
        have hlook : look - (((rel - mp) % 4294967296).toNat) = ((base : Int) + mp).toNat := by
          omega
        rw [hlook]
        exact heqs k hk
    exact ih (prevA mp.toNat) _ (hp mp.toNat (by omega)) hbest2 r hr

theorem find_spec (input : List Nat) (ctx : Ctx) (relpos : Nat)
    (hinv : Inv input ctx relpos) (off len : Nat)
    (hfind : lz_find_longest_match input ctx = some (off, len)) :
    len ≤ 511 ∧ len ≤ input.length - ctx.look ∧
      (1 ≤ len → 1 ≤ off ∧ off ≤ 32767 ∧ off ≤ ctx.look ∧
        ∀ k, k < len → input.get? (ctx.look - off + k) = input.get? (ctx.look + k)) := by
  obtain ⟨hbase, hrelmax, hlook, hhead, hprev⟩ := hinv
  rw [lz_find_longest_match] at hfind
  have hrelv : toI16 ((ctx.look : Int) - (ctx.base : Int)) = (relpos : Int) := by
    have : (ctx.look : Int) - (ctx.base : Int) = (relpos : Int) := by
      omega
    rw [this]
    exact toI16_eq _ (by omega) (by omega)
  rw [hrelv] at hfind
  rw [if_neg (by omega : ¬ (relpos : Int) < 0)] at hfind
  have hlimv : toI16 ((relpos : Int) - 32768) = (relpos : Int) - 32768 :=
    toI16_eq _ (by omega) (by omega)
  rw [hlimv] at hfind
  by_cases hml : min 511 (input.length - ctx.look) < 3
  · rw [if_pos hml] at hfind
    cases hfind
    refine ⟨by omega, by omega, ?_⟩
    intro h1
    omega
  rw [if_neg hml] at hfind
  rcases hh : hashAt input ctx.look with _ | h
  · rw [hh] at hfind
    cases hfind
  rw [hh] at hfind
  dsimp only at hfind
  have hres := findGo_sound input ctx.prev ctx.base ctx.look (relpos : Int)
    ((relpos : Int) - 32768) (min 511 (input.length - ctx.look))
    (by omega) (by omega) rfl (by omega)
    (fun i hi => hprev i hi) 64 (ctx.head (h % 32768)) (0, 0)
    (hhead (h % 32768) (Nat.mod_lt _ (by norm_num)))
    (by constructor <;> simp) (off, len) hfind
  obtain ⟨h1, h2⟩ := hres
  refine ⟨by omega, by omega, h2⟩

theorem Inv_of_frame (input : List Nat) (ctx ctx2 : Ctx) (relpos : Nat)
    (h1 : ctx2.look = ctx.look) (h2 : ctx2.base = ctx.base)
    (h3 : ctx2.head = ctx.head) (h4 : ctx2.prev = ctx.prev)
    (hinv : Inv input ctx relpos) : Inv input ctx2 relpos := by
  rw [Inv, h1, h2, h3, h4]
  exact hinv

theorem recordOne_inv (input : List Nat) (ctx : Ctx) (relpos : Nat)
    (hinv : Inv input ctx relpos) (ctx2 : Ctx) (rel2 : Nat)
    (h : recordOne input ctx relpos = some (ctx2, rel2)) :
    Inv input ctx2 rel2 ∧ ctx2.look = ctx.look + 1 ∧ ctx2.seqs = ctx.seqs := by
  obtain ⟨hbase, hrelmax, hlook, hhead, hprev⟩ := hinv
  rw [recordOne] at h
  rcases hh : hashAt input ctx.look with _ | hv
  · rw [hh] at h
    cases h
  rw [hh] at h
  dsimp only at h
  rw [if_neg (by omega : ¬ 32768 ≤ relpos)] at h
  have hlk3 : ctx.look + 3 ≤ input.length := by
    rw [hashAt] at hh
    by_contra hcon
    rw [if_neg hcon] at hh
    cases hh
  have hrelv : toI16 (relpos : Nat) = (relpos : Int) :=
    toI16_eq _ (by omega) (by omega)
  have hentries1 : ∀ i, i < 32768 →
      entry_ok ctx.base (ctx.look + 1)
        (if i = hv % 32768 then toI16 relpos else ctx.head i) := by
    intro i hi
    by_cases hieq : i = hv % 32768
    · rw [if_pos hieq, hrelv]
      right
      refine ⟨by omega, by omega, ?_, ?_⟩
      · omega
      · push_cast
        omega
    · rw [if_neg hieq]
      exact entry_ok_mono _ _ _ _ (hhead i hi) (by omega)
  have hentries2 : ∀ i, i < 32768 →
      entry_ok ctx.base (ctx.look + 1)
        (if i = relpos then ctx.head (hv % 32768) else ctx.prev i) := by
    intro i hi
    by_cases hieq : i = relpos
    · rw [if_pos hieq]
      exact entry_ok_mono _ _ _ _ (hhead (hv % 32768) (Nat.mod_lt _ (by norm_num))) (by omega)
    · rw [if_neg hieq]
      exact entry_ok_mono _ _ _ _ (hprev i hi) (by omega)
  by_cases hreb : relpos + 1 = 32767
  · rw [if_pos hreb] at h
    cases h
    rw [Inv]
    dsimp only [lz_reindex_hashtable]
    refine ⟨⟨by omega, by omega, by omega, ?_, ?_⟩, rfl, rfl⟩
    · intro i hi
      exact reindex_entry_ok _ _ _ (hentries1 i hi)
    · intro i hi
      exact reindex_entry_ok _ _ _ (hentries2 i hi)
  · rw [if_neg hreb] at h
    cases h
    rw [Inv]
    dsimp only
    exact ⟨⟨by omega, by omega, by omega, hentries1, hentries2⟩, rfl, rfl⟩

theorem skipOne_inv (input : List Nat) (ctx : Ctx) (relpos : Nat)
    (hinv : Inv input ctx relpos) (hlk : ctx.look < input.length) :
    Inv input (skipOne ctx relpos).1 (skipOne ctx relpos).2 ∧
      (skipOne ctx relpos).1.look = ctx.look + 1 ∧
      (skipOne ctx relpos).1.seqs = ctx.seqs := by
  obtain ⟨hbase, hrelmax, hlook, hhead, hprev⟩ := hinv
  rw [skipOne]
  by_cases hreb : relpos + 1 = 32767
  · rw [if_pos hreb]
    rw [Inv]
    dsimp only [lz_reindex_hashtable]
    refine ⟨⟨by omega, by omega, by omega, ?_, ?_⟩, rfl, rfl⟩
    · intro i hi
      exact reindex_entry_ok _ _ _ (entry_ok_mono _ _ _ _ (hhead i hi) (by omega))
    · intro i hi
      exact reindex_entry_ok _ _ _ (entry_ok_mono _ _ _ _ (hprev i hi) (by omega))
  · rw [if_neg hreb]
    rw [Inv]
    dsimp only
    refine ⟨⟨by omega, by omega, by omega, ?_, ?_⟩, rfl, rfl⟩
    · intro i hi
      exact entry_ok_mono _ _ _ _ (hhead i hi) (by omega)
    · intro i hi
      exact entry_ok_mono _ _ _ _ (hprev i hi) (by omega)

theorem recordLoop_inv (input : List Nat) :
    ∀ k ctx relpos ctx2 rel2, Inv input ctx relpos →
      recordLoop input k ctx relpos = some (ctx2, rel2) →
      Inv input ctx2 rel2 ∧ ctx2.look = ctx.look + k ∧ ctx2.seqs = ctx.seqs := by
  intro k
  induction k with
  | zero =>
    intro ctx relpos ctx2 rel2 hinv h
    rw [recordLoop] at h
    cases h
    exact ⟨hinv, rfl, rfl⟩
  | succ k ih =>
    intro ctx relpos ctx2 rel2 hinv h
    rw [recordLoop] at h
    rcases h1 : recordOne input ctx relpos with _ | p
    · rw [h1] at h
      cases h
    rw [h1] at h
    dsimp only at h
    obtain ⟨hinv1, hlk1, hsq1⟩ := recordOne_inv input ctx relpos hinv p.1 p.2 (by rw [h1])
    obtain ⟨hinv2, hlk2, hsq2⟩ := ih p.1 p.2 ctx2 rel2 hinv1 h
    exact ⟨hinv2, by omega, by rw [hsq2, hsq1]⟩

theorem skipLoop_inv (input : List Nat) :
    ∀ k ctx relpos, Inv input ctx relpos → ctx.look + k ≤ input.length →
      Inv input (skipLoop k ctx relpos).1 (skipLoop k ctx relpos).2 ∧
        (skipLoop k ctx relpos).1.look = ctx.look + k ∧
        (skipLoop k ctx relpos).1.seqs = ctx.seqs := by
  intro k
  induction k with
  | zero =>
    intro ctx relpos hinv _
    exact ⟨hinv, rfl, rfl⟩
  | succ k ih =>
    intro ctx relpos hinv hbound
    rw [skipLoop]
    obtain ⟨hinv1, hlk1, hsq1⟩ := skipOne_inv input ctx relpos hinv (by omega)
    obtain ⟨hinv2, hlk2, hsq2⟩ := ih (skipOne ctx relpos).1 (skipOne ctx relpos).2 hinv1
      (by omega)
    exact ⟨hinv2, by omega, by rw [hsq2, hsq1]⟩

theorem record_bytes_inv (input : List Nat) (ctx : Ctx) (num relpos : Nat)
    (hinv : Inv input ctx relpos) (hnum : 1 ≤ num)
    (hbound : ctx.look + num ≤ input.length) (ctx2 : Ctx) (rel2 : Nat)
    (h : lz_record_bytes input ctx num relpos = some (ctx2, rel2)) :
    Inv input ctx2 rel2 ∧ ctx2.look = ctx.look + num ∧ ctx2.seqs = ctx.seqs := by
  rw [lz_record_bytes] at h
  rw [if_neg (by omega : ¬ num = 0)] at h
  dsimp only at h
  set pen := if input.length < ctx.look + num + 3 then ctx.look + num + 3 - input.length else 0
    with hpen
  rcases h1 : recordLoop input (num - min pen num) ctx relpos with _ | p
  · rw [h1] at h
    cases h
  rw [h1] at h
  dsimp only at h
  have hx := Option.some.inj h
  obtain ⟨hinv1, hlk1, hsq1⟩ := recordLoop_inv input _ _ _ _ _ hinv h1
  obtain ⟨hinv2, hlk2, hsq2⟩ := skipLoop_inv input (min pen num) p.1 p.2 hinv1 (by omega)
  rw [hx] at hinv2 hlk2 hsq2
  dsimp only at hinv2 hlk2 hsq2
  refine ⟨hinv2, by omega, by rw [hsq2, hsq1]⟩

theorem emitLiterals_frame (input : List Nat) (base relpos : Nat) :
    ∀ k i ctx ctx2, emitLiterals input base relpos i k ctx = some ctx2 →
      ctx2.look = ctx.look ∧ ctx2.base = ctx.base ∧ ctx2.head = ctx.head ∧
        ctx2.prev = ctx.prev ∧ ctx2.seqs = ctx.seqs ∧ ctx2.seqStart = ctx.seqStart := by
  intro k
  induction k with
  | zero =>
    intro i ctx ctx2 h
    rw [emitLiterals] at h
    cases h
    exact ⟨rfl, rfl, rfl, rfl, rfl, rfl⟩
  | succ k ih =>
    intro i ctx ctx2 h
    rw [emitLiterals] at h
    rcases h1 : input.get? (base + relpos + i) with _ | b
    · rw [h1] at h
      cases h
    rw [h1] at h
    dsimp only at h
    exact ih (i + 1) (lz_emit_literal ctx) ctx2 h

theorem lzGo_spec (input : List Nat) :
    ∀ fuel ctx relpos, Inv input ctx relpos →
      (∀ s, s ∈ ctx.seqs → seq_bounds_ok input s) →
      ∀ s, s ∈ (lzGo input fuel ctx relpos).1 → seq_bounds_ok input s := by
  intro fuel
  induction fuel with
  | zero =>
    intro ctx relpos _ hseqs s hs
    rw [lzGo] at hs
    exact hseqs s hs
  | succ fuel ih =>
    intro ctx relpos hinv hseqs s hs
    have hlksz : ctx.look ≤ input.length := hinv.2.2.1
    rw [lzGo] at hs
    by_cases hend : ctx.look = input.length
    · rw [if_pos hend] at hs
      exact hseqs s hs
    rw [if_neg hend] at hs
    rcases hf : lz_find_longest_match input ctx with _ | pr
    · rw [hf] at hs
      dsimp only at hs
      exact hseqs s hs
    obtain ⟨moff, mlen⟩ := pr
    rw [hf] at hs
    dsimp only at hs
    have hfs := find_spec input ctx relpos hinv moff mlen hf
    by_cases hsmall : mlen < 3
    · rw [if_pos hsmall] at hs
      rcases he : emitLiterals input ctx.base relpos 0 (if mlen = 0 then 1 else mlen) ctx
        with _ | ctx2
      · rw [he] at hs
        dsimp only at hs
        exact hseqs s hs
      rw [he] at hs
      dsimp only at hs
      obtain ⟨hl1, hl2, hl3, hl4, hl5, _⟩ :=
        emitLiterals_frame input ctx.base relpos _ 0 ctx ctx2 he
      have hinv2 : Inv input ctx2 relpos := Inv_of_frame input ctx ctx2 relpos hl1 hl2 hl3 hl4 hinv
      rcases hr : lz_record_bytes input ctx2 (if mlen = 0 then 1 else mlen) relpos with _ | q
      · rw [hr] at hs
        dsimp only at hs
        rw [hl5] at hs
        exact hseqs s hs
      rw [hr] at hs
      dsimp only at hs
      have hnum1 : 1 ≤ (if mlen = 0 then 1 else mlen) := by split <;> omega
      have hbound : ctx2.look + (if mlen = 0 then 1 else mlen) ≤ input.length := by
        rw [hl1]
        have h2 := hfs.2.1
        by_cases hz : mlen = 0
        · rw [if_pos hz]
          omega
        · rw [if_neg hz]
          omega
      obtain ⟨hinv3, hlk3, hsq3⟩ :=
        record_bytes_inv input ctx2 _ relpos hinv2 hnum1 hbound q.1 q.2 (by rw [hr])
      refine ih q.1 q.2 hinv3 ?_ s hs
      intro t ht
      rw [hsq3, hl5] at ht
      exact hseqs t ht
    · rw [if_neg hsmall] at hs
      have hnew : seq_bounds_ok input
          { pos := ctx.look, start_index := ctx.seqStart, num_literals := ctx.seqLits,
            match_length := mlen % 65536, match_offset := moff % 65536 } := by
        obtain ⟨hO1, hO2, hO3⟩ := hfs
        obtain ⟨ho1, ho2, ho3, ho4⟩ := hO3 (by omega)
        have hml : mlen % 65536 = mlen := Nat.mod_eq_of_lt (by omega)
        have hmo : moff % 65536 = moff := Nat.mod_eq_of_lt (by omega)
        rw [seq_bounds_ok]
        dsimp only
        rw [hml, hmo]
        exact ⟨by omega, by omega, by omega, by omega, ho3, by omega, ho4⟩
      have hseqs2 : ∀ t, t ∈ (lz_start_new_sequence (lz_emit_reference ctx moff mlen)).seqs →
          seq_bounds_ok input t := by
        intro t ht
        dsimp only [lz_start_new_sequence, lz_emit_reference] at ht
        rcases List.mem_append.mp ht with ht | ht
        · exact hseqs t ht
        · rw [List.mem_singleton.mp ht]
          exact hnew
      rcases hr : lz_record_bytes input (lz_start_new_sequence (lz_emit_reference ctx moff mlen))
          mlen relpos with _ | q
      · rw [hr] at hs
        dsimp only at hs
        exact hseqs2 s hs
      rw [hr] at hs
      dsimp only at hs
      have hinv2 : Inv input (lz_start_new_sequence (lz_emit_reference ctx moff mlen)) relpos :=
        Inv_of_frame input ctx _ relpos rfl rfl rfl rfl hinv
      have hbound : (lz_start_new_sequence (lz_emit_reference ctx moff mlen)).look + mlen ≤
          input.length := by
        have h2 := hfs.2.1
        show ctx.look + mlen ≤ input.length
        omega
      obtain ⟨hinv3, hlk3, hsq3⟩ :=
        record_bytes_inv input _ mlen relpos hinv2 (by omega) hbound q.1 q.2 (by rw [hr])
      refine ih q.1 q.2 hinv3 ?_ s hs
      intro t ht
      rw [hsq3] at ht
      exact hseqs2 t ht

end Defl

/-- C4 (amended).  For every bit array state, value and width n at most 31,
appending the low n bits of v LSB-first and reading n bits LSB-first at the append
position returns v masked to n bits; the same holds for the MSB-first pair.  Reads
of 32 bits or more shift an int-promoted bit by 31 or more positions and are
undefined (see the counterexample), and a 64-bit read fails the read assert. -/
theorem bitarray_roundtrip_amended (A : Bits.BitArr) (v n : Nat) (h : n ≤ 31) :
    Bits.bitarray_bits_lsb (Bits.bitarray_push_bits_lsb A v n) A.size n =
        some (v &&& (1 <<< n - 1)) ∧
      Bits.bitarray_bits_msb (Bits.bitarray_push_bits_msb A v n) A.size n =
        some (v &&& (1 <<< n - 1)) := by
  rw [Nat.one_shiftLeft, Nat.and_pow_two_sub_one_eq_mod]
  constructor
  · rw [Bits.bitarray_bits_lsb,
      if_pos ⟨by rw [Bits.pushLsb_size], by omega⟩]
    have hs := Bits.lsbReadGo_spec (Bits.bitarray_push_bits_lsb A v n) A.size v n h
      (fun i hi => Bits.pushLsb_bit A v n i hi) n 0 (by omega)
    rw [show v % 2 ^ 0 = 0 from by rw [pow_zero, Nat.mod_one]] at hs
    exact hs
  · rw [Bits.bitarray_bits_msb, Bits.bitarray_push_bits_msb,
      if_pos ⟨by rw [Bits.msbGo_size], by omega⟩]
    have hs := Bits.msbReadGo_spec (Bits.msbPushGo v A n) A.size v n h
      (fun i hi => Bits.msbGo_bit v n A i hi) n 0 (by omega)
    rw [show v % 2 ^ n - v % 2 ^ (n - 0) = 0 from by rw [Nat.sub_zero, Nat.sub_self]] at hs
    exact hs

/-- C4 witness: the amended round trip at the concrete pair v = 23781, n = 16, on
an empty bit array. -/
theorem bitarray_roundtrip_amended_witness :
    Bits.bitarray_bits_lsb
        (Bits.bitarray_push_bits_lsb ⟨0, fun _ => 0⟩ 23781 16) 0 16 =
        some (23781 &&& (1 <<< 16 - 1)) ∧
      Bits.bitarray_bits_msb
        (Bits.bitarray_push_bits_msb ⟨0, fun _ => 0⟩ 23781 16) 0 16 =
        some (23781 &&& (1 <<< 16 - 1)) :=
  bitarray_roundtrip_amended ⟨0, fun _ => 0⟩ 23781 16 (by norm_num)

/-- C4 counterexample: the claim as stated fails at v = 2^31, n = 32.  The append
succeeds, but the LSB read of 32 bits shifts the int-promoted bit read at position
31 by 31 places, which is undefined, so the read does not return
v & ((1<<32)-1) = 2^31. -/
theorem bitarray_roundtrip_counterexample :
    Bits.bitarray_bits_lsb
        (Bits.bitarray_push_bits_lsb ⟨0, fun _ => 0⟩ (2 ^ 31) 32) 0 32 = none ∧
      2 ^ 31 &&& (1 <<< 32 - 1) = 2 ^ 31 := by
  constructor
  · rfl
  · rfl

/-- C10: bitarray_push appends exactly one bit and modifies nothing else: the size
grows by one, the bit at the old size equals the pushed bit, and every bit at an
index below the old size keeps its value. -/
theorem bitarray_push_frame (A : Bits.BitArr) (b : Nat) (hb : b ≤ 1) :
    (Bits.bitarray_push A b).size = A.size + 1 ∧
      Bits.bitarray_bit (Bits.bitarray_push A b) A.size = b ∧
      ∀ i, i < A.size →
        Bits.bitarray_bit (Bits.bitarray_push A b) i = Bits.bitarray_bit A i := by
  refine ⟨Bits.push_raw_size A b, ?_, fun i hi => Bits.bit_push_raw_frame A b i hi⟩
  show Bits.bitarray_bit (Bits.bitarray_push_raw A b) A.size = b
  rw [Bits.bit_push_raw_self]
  omega


set_option maxRecDepth 40000 in
/-- C6: on the input "aab" ([97, 97, 98]) the pipeline assigns the two used
symbols the complete prefix-code lengths 1 and 1, but build_canonical_prefix_code
reads next_length as lengths[i - 1] (the raw index) instead of
lengths[sorted[i - 1]]: at the very first step next_length = lengths[254] = 0
while length = 1, the uint32 shift count (0 - 1) underflows past 32 and the shift
is undefined, so no prefix-code table is produced (with the hardware shift the
two used symbols would receive identical emitted codewords). -/
theorem build_canonical_raw_index_bug :
    (Huff.pipeline_lengths [97, 97, 98]).map (fun l => (l 97, l 98)) = some (1, 1) ∧
      Huff.pipeline_codewords [97, 97, 98] = none :=
  ⟨rfl, rfl⟩

/-- Sanity check of the lz77 embedding: on "abracadabra" compression succeeds and
decompression returns the input, so the round trip does hold on inputs whose run
stays inside the input buffer. -/
theorem lz77_roundtrip_abracadabra :
    (LZ.lz77_compress [97, 98, 114, 97, 99, 97, 100, 97, 98, 114, 97]).bind
        LZ.lz77_uncompress =
      some [97, 98, 114, 97, 99, 97, 100, 97, 98, 114, 97] :=
  rfl

/-- C1: the round trip fails on the two-byte input [0, 0].  At the final position
the match probe evaluates pattern[1] = data[2], one byte past the end of the
input, so compression is undefined (none in the embedding); the compiled code
goes on to emit a triple covering two bytes where only one remains, with the
out-of-bounds byte as the literal, and decompression then returns three bytes,
input plus one garbage byte, instead of [0, 0]. -/
theorem lz77_roundtrip_oob : LZ.lz77_compress [0, 0] = none :=
  rfl

/-- C7: on the paper frequencies [1, 1, 5, 7, 10, 14] with limit 3, package_merge
fills the caller's active-leaf array with [4, 6, 6] whatever its initial
(uninitialised) contents were, and get_lengths converts those counts to the code
lengths [3, 3, 3, 3, 2, 2]. -/
theorem package_merge_paper_example (init : List Nat) :
    PM.package_merge [1, 1, 5, 7, 10, 14] 3 init = some [4, 6, 6] ∧
      PM.get_lengths [4, 6, 6] 3 6 6 = some [3, 3, 3, 3, 2, 2] :=
  ⟨rfl, rfl⟩

/-- C8: called with a single frequency, package_merge does not emit len[0] = 1:
for every limit (in particular every valid one) and every initial array it fails
its assert(n > 1), whose failure the embedding renders as none. -/
theorem package_merge_single (limit : Nat) (init : List Nat) :
    PM.package_merge [5] limit init = none := by
  simp [PM.package_merge]

/-- C2: on the sorted positive frequencies [1, 1, 3] with the valid limit 2
(2^2 = 4 > 3 = n), package_merge reports 4 active leaves at depth 2 and 2 at depth
1 - four leaves among three symbols - and converting those counts to code lengths
overruns the three-entry length array, so no lengths (in particular no optimal
lengths; the optimum is [2, 2, 1]) are produced. -/
theorem package_merge_limit2_leaves (init : List Nat) :
    PM.package_merge [1, 1, 3] 2 init = some [4, 2] ∧
      PM.get_lengths [4, 2] 2 3 3 = none :=
  ⟨rfl, rfl⟩

/-- C3: on the sorted positive frequencies [1, 1, 3] with the valid limit 2 the
pipeline of package_merge and get_lengths produces no code lengths at all (the
active-leaf counts [4, 2] make get_lengths write a fourth length into the
three-entry array), so in particular no lengths satisfying the Kraft equality are
produced. -/
theorem package_merge_limit2_kraft :
    (PM.package_merge [1, 1, 3] 2 [0, 0]).bind
      (fun a => PM.get_lengths a 2 3 3) = none :=
  rfl

/-- C10 witness: pushing bit 1 onto a 3-bit array whose backing byte is 173. -/
theorem bitarray_push_frame_witness :
    (Bits.bitarray_push ⟨3, fun _ => 173⟩ 1).size = 3 + 1 ∧
      Bits.bitarray_bit (Bits.bitarray_push ⟨3, fun _ => 173⟩ 1) 3 = 1 ∧
      ∀ i, i < 3 →
        Bits.bitarray_bit (Bits.bitarray_push ⟨3, fun _ => 173⟩ 1) i =
          Bits.bitarray_bit ⟨3, fun _ => 173⟩ i :=
  bitarray_push_frame ⟨3, fun _ => 173⟩ 1 (by norm_num)

/-- C5 (amended): every match emitted by the LZ encoder satisfies
3 <= length <= 511 (the code's MATCH_LENGTH_MAX is 511, not the claimed 258) and
1 <= distance <= 32768, and at the moment of emission the length bytes starting
distance bytes before the emission position equal the next length input bytes. -/
theorem lz_match_validity_amended (input : List Nat) (s : Defl.Seq)
    (h : s ∈ (Defl.lz_compress input).1) : Defl.seq_bounds_ok input s := by
  refine Defl.lzGo_spec input (input.length + 1)
    { look := 0, base := 0, head := fun _ => Defl.EMPTY, prev := fun _ => Defl.EMPTY,
      seqStart := 0, seqLits := 0, seqs := [] } 0 ?_ ?_ s h
  · exact ⟨rfl, by omega, Nat.zero_le _, fun i _ => Or.inl rfl, fun i _ => Or.inl rfl⟩
  · intro t ht
    cases ht

/-- C5 witness: on input "aaaa" the encoder emits one sequence, a literal then a
match of length 3 at distance 1, and that sequence satisfies the bounds. -/
theorem lz_match_validity_amended_witness :
    Defl.seq_bounds_ok [97, 97, 97, 97] ⟨1, 0, 1, 3, 1⟩ :=
  lz_match_validity_amended [97, 97, 97, 97] ⟨1, 0, 1, 3, 1⟩
    (by rw [show (Defl.lz_compress [97, 97, 97, 97]).1 = [⟨1, 0, 1, 3, 1⟩] from rfl]
        exact List.mem_singleton.mpr rfl)

set_option maxRecDepth 10000 in
/-- C5 counterexample to the claimed bound length <= 258: on 263 repeated bytes
the encoder emits a single match of length 262 at distance 1, because the code's
MATCH_LENGTH_MAX is 511, not DEFLATE's 258. -/
theorem lz_match_length_counterexample :
    ((Defl.lz_compress (List.replicate 263 97)).1.map
        (fun s => (s.match_offset, s.match_length))) = [(1, 262)] ∧ 258 < 262 :=
  ⟨rfl, by norm_num⟩
